import Mathlib

/-!
Shallow embedding of the msr-offroad HMM engine and walk-forward controller.

Embedded sources:
* the `HMM` class (hmm.ts): matrices `A` (N×N transitions), `B` (N×M emissions),
  vector `pi` (initial distribution), cached transpose `At`; the operations
  `initializeProbabilities` / `fillRandomNormalized`, `train` (Baum-Welch EM),
  `computeForward`, `computeBackward`, `predictSteps`, `predictNext`,
  `updateTransposedA`;
* the ensemble-aggregation loop and the chunked walk-forward loop of
  `runBacktest` (backtest.ts);
* `getPayoutBucket` and the observation-code derivation (utils.ts).

Modelling conventions: IEEE doubles are embedded as exact rationals `ℚ`;
row-major `Float64Array` matrices become curried functions out of `Fin`;
an observation (`Int32Array` entry, `-1` = unresolved sentinel) becomes
`Option (Fin M)` with `none` for the sentinel; per-time-step buffers become
lists of rows, with `List.getD`'s default row `fun _ => 0` mirroring the
zero fill that the source's `BufferPool` guarantees for unwritten cells.
-/

namespace MsrOffroad

/-- An observation symbol: `some k` is a resolved code `k ∈ [0, M)`, `none` is
the unresolved sentinel (source value `-1`). -/
abbrev Obs (M : ℕ) := Option (Fin M)

/-- State of one `HMM` instance (hmm.ts class fields): transition matrix `A`,
emission matrix `B`, initial distribution `pi`, and the cached transpose `At`
of `A` (a derived field, kept in sync by `updateTransposedA`). -/
structure HMM (N M : ℕ) where
  A : Fin N → Fin N → ℚ
  B : Fin N → Fin M → ℚ
  pi : Fin N → ℚ
  At : Fin N → Fin N → ℚ

variable {N M : ℕ}

/-- The tiny positive constant `1e-20` the source substitutes for a zero
denominator during training. -/
def eps20 : ℚ := 1 / 10 ^ 20

/-- The clamp floor `1e-10` used by `fillRandomNormalized`
(`Math.max(rng.next(), 1e-10)`). -/
def clampFloor : ℚ := 1 / 10 ^ 10

/-- Embeds the recurring source pattern `if (denom === 0) denom = 1e-20`. -/
def guardDenom (d : ℚ) : ℚ := if d = 0 then eps20 else d

/-- Emission probability lookup, embedding the source pattern
`o === -1 ? 1.0 : B[j * M + o]`: the sentinel is treated as probability `1`. -/
def emissionProb (B : Fin N → Fin M → ℚ) (o : Obs M) (j : Fin N) : ℚ :=
  match o with
  | none => 1
  | some k => B j k

/-- Embeds `fillRandomNormalized(arr)`: clamp each raw random draw to at least
`1e-10`, then (when the total is positive) scale the row by `1 / sum`. The raw
draws `vals` stand for the source's `rng.next()` stream. -/
def fillRandomNormalized (vals : Fin n → ℚ) : Fin n → ℚ :=
  let clamped : Fin n → ℚ := fun i => max (vals i) clampFloor
  let s : ℚ := ∑ i, clamped i
  if 0 < s then fun i => clamped i * (1 / s) else clamped

/-- Embeds `updateTransposedA()`: recompute the cached transpose from `A`. -/
def updateTransposedA (h : HMM N M) : HMM N M :=
  { h with At := fun j i => h.A i j }

/-- Embeds the `HMM` constructor together with `initializeProbabilities()`:
`pi` and every row of `A` and `B` are filled by `fillRandomNormalized` from
raw random draws (`rpi`, `rA`, `rB`), then the transpose cache is computed. -/
def initializeProbabilities (N M : ℕ) (rpi : Fin N → ℚ)
    (rA : Fin N → Fin N → ℚ) (rB : Fin N → Fin M → ℚ) : HMM N M :=
  let pi := fillRandomNormalized rpi
  let A := fun i => fillRandomNormalized (rA i)
  let B := fun i => fillRandomNormalized (rB i)
  { A := A, B := B, pi := pi, At := fun j i => A i j }

/-- Sum of one scratch-buffer row (the source's per-step `rowSum`). -/
def rowSum (row : Fin N → ℚ) : ℚ := ∑ i, row i

/-- Row scaling `alpha[i] *= 1 / rowSum` used by the forward pass. -/
def normalizeRow (row : Fin N → ℚ) : Fin N → ℚ :=
  fun i => row i * (1 / rowSum row)

/-- Row `t = 0` of the forward pass: `alpha[i] = pi[i] * emissionProb(o0, i)`. -/
def forwardInitRow (h : HMM N M) (o : Obs M) : Fin N → ℚ :=
  fun i => h.pi i * emissionProb h.B o i

/-- Row `t > 0` of the forward pass:
`alpha[t][j] = (Σ_i alpha[t-1][i] * At[j][i]) * emissionProb(o_t, j)`.
The cached transpose `At` is read here, exactly as in the source. -/
def forwardStepRow (h : HMM N M) (prev : Fin N → ℚ) (o : Obs M) : Fin N → ℚ :=
  fun j => (∑ i, prev i * h.At j i) * emissionProb h.B o j

/-- Steps `t ≥ 1` of `computeForward`, given the normalized previous row.
Returns the remaining alpha rows plus `true` when every row sum was positive.
On a non-positive row sum the source returns `-Infinity` at once, leaving the
current row unnormalized in the buffer and the remaining rows at the zero the
buffer pool guarantees; the `false` branch reproduces those buffer contents. -/
def forwardAux (h : HMM N M) (prev : Fin N → ℚ) :
    List (Obs M) → List (Fin N → ℚ) × Bool
  | [] => ([], true)
  | o :: rest =>
    let row := forwardStepRow h prev o
    if rowSum row ≤ 0 then (row :: rest.map (fun _ _ => (0 : ℚ)), false)
    else
      let p := forwardAux h (normalizeRow row) rest
      (normalizeRow row :: p.1, p.2)

/-- Embeds `computeForward(obs, alpha)`: the returned list is the alpha buffer
(one row per observation) and the flag is `false` exactly when the source
returns `-Infinity` (some row sum `≤ 0`). -/
def computeForward (h : HMM N M) : List (Obs M) → List (Fin N → ℚ) × Bool
  | [] => ([], true)
  | o :: rest =>
    let row := forwardInitRow h o
    if rowSum row ≤ 0 then (row :: rest.map (fun _ _ => (0 : ℚ)), false)
    else
      let p := forwardAux h (normalizeRow row) rest
      (normalizeRow row :: p.1, p.2)

/-- Embeds `computeBackward(obs, beta)`: `beta[T-1] = 1`, then downward
`beta[t][i] = Σ_j A[i][j] * emissionProb(o_{t+1}, j) * beta[t+1][j]`,
each row scaled by `1 / rowSum` with the zero-sum epsilon guard. -/
def computeBackward (h : HMM N M) : List (Obs M) → List (Fin N → ℚ)
  | [] => []
  | [_] => [fun _ => 1]
  | _ :: o2 :: rest =>
    let tl := computeBackward h (o2 :: rest)
    let nxt := tl.headD (fun _ => 0)
    let row : Fin N → ℚ := fun i => ∑ j, h.A i j * emissionProb h.B o2 j * nxt j
    (fun i => row i * (1 / guardDenom (rowSum row))) :: tl

/-- Row `t` of a per-time-step buffer, with the pool's zero fill as default. -/
def alphaAt (rows : List (Fin N → ℚ)) (t : ℕ) : Fin N → ℚ :=
  rows.getD t (fun _ => 0)

/-- Observation at index `t` (always in range where used). -/
def obsAt (obs : List (Obs M)) (t : ℕ) : Obs M := obs.getD t none

/-- Unnormalized `xi[t][i][j] = alpha[t][i] * A[i][j] * emissionProb(o_{t+1}, j)
* beta[t+1][j]` from the E-step loop of `train`. -/
def xiUnnorm (h : HMM N M) (alphaT betaT1 : Fin N → ℚ) (o : Obs M) :
    Fin N → Fin N → ℚ :=
  fun i j => alphaT i * h.A i j * emissionProb h.B o j * betaT1 j

/-- Per-time-step normalizer `denom = Σ_{i,j} xi[t][i][j]`. -/
def xiDenom (h : HMM N M) (alphaT betaT1 : Fin N → ℚ) (o : Obs M) : ℚ :=
  ∑ i, ∑ j, xiUnnorm h alphaT betaT1 o i j

/-- Normalized `xi` (with the zero-denominator epsilon guard). -/
def xiNorm (h : HMM N M) (alphaT betaT1 : Fin N → ℚ) (o : Obs M) :
    Fin N → Fin N → ℚ :=
  fun i j =>
    xiUnnorm h alphaT betaT1 o i j * (1 / guardDenom (xiDenom h alphaT betaT1 o))

/-- Marginal `gamma[t][i] = Σ_j xi[t][i][j]` for `t < T - 1`. -/
def gammaRow (h : HMM N M) (alphaT betaT1 : Fin N → ℚ) (o : Obs M) :
    Fin N → ℚ :=
  fun i => ∑ j, xiNorm h alphaT betaT1 o i j

/-- Terminal `gamma[T-1][i] = alpha[T-1][i] / Σ_k alpha[T-1][k]` (guarded). -/
def gammaLast (alphaLast : Fin N → ℚ) : Fin N → ℚ :=
  fun i => alphaLast i * (1 / guardDenom (∑ k, alphaLast k))

/-- `xi` at time `t` of one training iteration, read out of the buffers. -/
def xiAt (h : HMM N M) (obs : List (Obs M)) (alpha beta : List (Fin N → ℚ))
    (t : ℕ) : Fin N → Fin N → ℚ :=
  xiNorm h (alphaAt alpha t) (alphaAt beta (t + 1)) (obsAt obs (t + 1))

/-- `gamma` at time `t` of one training iteration (`T` = sequence length):
rows `t < T - 1` come from the xi loop, row `T - 1` from the terminal case. -/
def gammaAt (h : HMM N M) (obs : List (Obs M)) (alpha beta : List (Fin N → ℚ))
    (T t : ℕ) : Fin N → ℚ :=
  if t = T - 1 then gammaLast (alphaAt alpha (T - 1))
  else gammaRow h (alphaAt alpha t) (alphaAt beta (t + 1)) (obsAt obs (t + 1))

/-- M-step re-estimation of `A` in `train`:
`A[i][j] = (Σ_{t<T-1} xi[t][i][j]) / (Σ_{t<T-1} gamma[t][i])` (guarded). -/
def reestimateA (xi : ℕ → Fin N → Fin N → ℚ) (gamma : ℕ → Fin N → ℚ)
    (T : ℕ) : Fin N → Fin N → ℚ :=
  fun i j =>
    (∑ t ∈ Finset.range (T - 1), xi t i j) *
      (1 / guardDenom (∑ t ∈ Finset.range (T - 1), gamma t i))

/-- M-step re-estimation of `B` in `train`: the numerator accumulates
`gamma[t][j]` into slot `obs[t]` only when `obs[t] !== -1`, and the denominator
sums `gamma[t][j]` over the non-sentinel positions only (guarded). -/
def reestimateB (obs : List (Obs M)) (gamma : ℕ → Fin N → ℚ) (T : ℕ) :
    Fin N → Fin M → ℚ :=
  fun j k =>
    (∑ t ∈ Finset.range T, if obsAt obs t = some k then gamma t j else 0) *
      (1 / guardDenom
        (∑ t ∈ Finset.range T, if obsAt obs t ≠ none then gamma t j else 0))

/-- One Baum-Welch iteration of the `train` loop: forward pass, early break on
a collapsed likelihood (`-Infinity`, flag `false`: the model is returned
untouched), backward pass, xi/gamma E-step, M-step for `pi`, `A`, `B`, and the
transpose-cache resync that closes every iteration. -/
def emStep (h0 : HMM N M) (obs : List (Obs M)) : HMM N M :=
  if (computeForward h0 obs).2 then
    let T := obs.length
    let alpha := (computeForward h0 obs).1
    let beta := computeBackward h0 obs
    let gam : ℕ → Fin N → ℚ := fun t => gammaAt h0 obs alpha beta T t
    let xi : ℕ → Fin N → Fin N → ℚ := fun t => xiAt h0 obs alpha beta t
    let A' := reestimateA xi gam T
    { A := A', B := reestimateB obs gam T, pi := fun i => gam 0 i,
      At := fun j i => A' i j }
  else h0

/-- Embeds `train(observations, iterations, tolerance)`: a no-op when the
sequence is shorter than 2, otherwise a transpose-cache sync followed by up to
`iterations` EM rounds. The source's convergence check
(`tolerance > 0 && iter > 0 && |ΔlogLikelihood| < tolerance`) compares real
logarithms and so has no exact-rational counterpart; it can only stop the loop
at the top of iteration `k`, at which point the parameters equal those after
`k` full rounds, so any property proved here for every `iterations` value
covers every `tolerance` value of the source. The `tolerance` argument is kept
for signature fidelity. -/
def train (h : HMM N M) (obs : List (Obs M)) (iterations : ℕ)
    (tolerance : ℚ) : HMM N M :=
  if obs.length < 2 then h
  else (fun hh => emStep hh obs)^[iterations] (updateTransposedA h)

/-- State distribution that seeds prediction: `pi` for an empty sequence,
otherwise the last forward row normalized by its sum, with a uniform `1/N`
fallback when that sum is exactly zero. -/
def initialStateDistribution (h : HMM N M) (obs : List (Obs M)) : Fin N → ℚ :=
  if obs.length = 0 then h.pi
  else if (∑ i, alphaAt (computeForward h obs).1 (obs.length - 1) i) = 0 then
    fun _ => 1 / (N : ℚ)
  else fun i =>
    alphaAt (computeForward h obs).1 (obs.length - 1) i *
      (1 / ∑ i, alphaAt (computeForward h obs).1 (obs.length - 1) i)

/-- One state projection of the prediction loop:
`next[j] = Σ_i state[i] * At[j][i]` (reads the cached transpose). -/
def projectState (h : HMM N M) (st : Fin N → ℚ) : Fin N → ℚ :=
  fun j => ∑ i, st i * h.At j i

/-- Observation mixture of the prediction loop:
`probs[k] = Σ_state state * B[state][k]`. -/
def emitDist (h : HMM N M) (st : Fin N → ℚ) : Fin M → ℚ :=
  fun k => ∑ i, st i * h.B i k

/-- The `for (s = 1; s <= maxSteps; s++)` loop of `predictSteps`: project the
state forward, emit its observation distribution, repeat. -/
def predictLoop (h : HMM N M) : ℕ → (Fin N → ℚ) → List (Fin M → ℚ)
  | 0, _ => []
  | s + 1, st =>
    let st' := projectState h st
    emitDist h st' :: predictLoop h s st'

/-- The model state after a `predictSteps` call: the source resyncs the
transpose cache (`updateTransposedA`) only on the non-empty branch, and
mutates nothing else. -/
def predictStepsPost (h0 : HMM N M) (obs : List (Obs M)) : HMM N M :=
  if obs.length = 0 then h0 else updateTransposedA h0

/-- Embeds `predictSteps(observations, maxSteps)`: seed the state distribution
from the forward pass (or `pi`), then produce one observation-probability
vector per step. -/
def predictSteps (h0 : HMM N M) (obs : List (Obs M)) (maxSteps : ℕ) :
    List (Fin M → ℚ) :=
  let h := predictStepsPost h0 obs
  predictLoop h maxSteps (initialStateDistribution h obs)

/-- Embeds `predictNext(observations, steps)`:
`return this.predictSteps(observations, steps)[steps - 1]!`. -/
def predictNext (h0 : HMM N M) (obs : List (Obs M)) (steps : ℕ) : Fin M → ℚ :=
  (predictSteps h0 obs steps).getD (steps - 1) (fun _ => 0)

/-- Embeds `getPayoutBucket(payout, slot)` from utils.ts: thresholds
`[low, high] = [5.5, 9.6]`; the `slot` argument is accepted but unused. -/
def getPayoutBucket (payout : ℚ) (slot : ℕ) : ℕ :=
  if payout ≤ 5.5 then 0 else if payout ≤ 9.6 then 1 else 2

/-- The observation-code derivation of `runBacktest`:
`(winningSlot - 1) * 3 + getPayoutBucket(winningPayout, winningSlot)`. -/
def obsCode (slot : ℕ) (payout : ℚ) : ℕ :=
  (slot - 1) * 3 + getPayoutBucket payout slot

/-- The fields of a target outcome record that the walk-forward controller
reads: `winningSlot` and `winningPayout` (`null` becomes `none`). -/
structure RaceR where
  winningSlot : Option ℕ
  winningPayout : Option ℚ

/-- The reveal step of `runBacktest` for one race (lines guarded by
`if (!isPending)`): when `winningSlot` is resolved, the derived observation
code is pushed onto the sequence. The source reads `winningPayout!` at that
point; a `null` payout coerces to `0` in the bucket comparison, which
`Option.getD 0` mirrors. -/
def revealCode (r : RaceR) : Option ℕ :=
  match r.winningSlot with
  | none => none
  | some s => some (obsCode s (r.winningPayout.getD 0))

/-- The ensemble-aggregation loop of `runBacktest`: `aggregatedProbs` starts
from `fill(0)`, and for each ensemble member whose prediction list has an
entry at chunk position `j`, accumulates `stepProbs[k] * (1 / ensembleSize)`.
`preds` is `allEnsemblePredictions`, `K` is `config.ensembleSize`. -/
def aggregateProbs (preds : List (List (Fin M → ℚ))) (j : ℕ) (K : ℕ) :
    Fin M → ℚ :=
  fun k =>
    preds.foldl
      (fun acc p =>
        match p.get? j with
        | some step => acc + step k * (1 / (K : ℚ))
        | none => acc)
      0

/-- The chunk loop of `runBacktest`, reduced to the two side effects the
end-to-end claim counts: per chunk (`config.chunkSize` races at a time) the
controller submits `K = config.ensembleSize` tasks to the worker pool, waits
for them, and in the reveal step appends one observation code per resolved
race to the sequence. Each trace entry records (tasks submitted for the
chunk, sequence after that chunk's reveal step). The `size = 0` guard is
vacuous for the source, whose loop `i += chunkSize` requires a positive
chunk size to terminate. -/
def wfTrace (K size : ℕ) (seq : List ℕ) (races : List RaceR) :
    List (ℕ × List ℕ) :=
  if hsz : size = 0 then []
  else if hr : races.length = 0 then []
  else
    let seq' := seq ++ (races.take size).filterMap revealCode
    (K, seq') :: wfTrace K size seq' (races.drop size)
termination_by races.length
decreasing_by
  simp only [List.length_drop]
  omega

/-- Concrete single-state, single-symbol model used by witnesses. -/
def oneHMM : HMM 1 1 :=
  { A := fun _ _ => 1, B := fun _ _ => 1, pi := fun _ => 1, At := fun _ _ => 1 }

lemma clampFloor_pos : (0 : ℚ) < clampFloor := by norm_num [clampFloor]

lemma eps20_pos : (0 : ℚ) < eps20 := by norm_num [eps20]

lemma guardDenom_ne_zero (d : ℚ) : guardDenom d ≠ 0 := by
  unfold guardDenom
  split_ifs with h
  · exact ne_of_gt eps20_pos
  · exact h

lemma guardDenom_pos {d : ℚ} (hd : 0 ≤ d) : 0 < guardDenom d := by
  unfold guardDenom
  split_ifs with h
  · exact eps20_pos
  · exact lt_of_le_of_ne hd (Ne.symm h)

lemma predictLoop_length (h : HMM N M) (s : ℕ) (st : Fin N → ℚ) :
    (predictLoop h s st).length = s := by
  induction s generalizing st with
  | zero => simp [predictLoop]
  | succ n ih => simp [predictLoop, ih]

lemma predictSteps_length (h0 : HMM N M) (obs : List (Obs M)) (S : ℕ) :
    (predictSteps h0 obs S).length = S := by
  simp [predictSteps, predictLoop_length]

/-- C10: `getPayoutBucket(payout, slot)` ignores its `slot` argument; it is
`0` when `payout ≤ 5.5`, `1` when `5.5 < payout ≤ 9.6`, and `2` otherwise, so
the derived observation code `(winningSlot - 1) * 3 + bucket` lies in
`[0, 18)` for winning slots 1 through 6 (the lower bound is inherent in the
natural-number codomain). -/
theorem getPayoutBucket_slot_independent (p : ℚ) (s s' slot : ℕ)
    (h1 : 1 ≤ slot) (h6 : slot ≤ 6) :
    getPayoutBucket p s = getPayoutBucket p s' ∧
    (p ≤ 5.5 → getPayoutBucket p s = 0) ∧
    (5.5 < p → p ≤ 9.6 → getPayoutBucket p s = 1) ∧
    (9.6 < p → getPayoutBucket p s = 2) ∧
    obsCode slot p < 18 := by
  have hb : getPayoutBucket p slot < 3 := by
    unfold getPayoutBucket
    split_ifs <;> omega
  refine ⟨rfl, fun hlow => ?_, fun hlow hhigh => ?_, fun hhigh => ?_, ?_⟩
  · simp [getPayoutBucket, hlow]
  · simp [getPayoutBucket, hhigh, not_le.mpr hlow]
  · have h1 : ¬ p ≤ 5.5 := by linarith
    have h2 : ¬ p ≤ 9.6 := not_le.mpr hhigh
    simp [getPayoutBucket, h1, h2]
  · unfold obsCode
    omega

/-- Witness for C10 at `payout = 7`, `slot = 2`. -/
theorem getPayoutBucket_slot_independent_witness :
    (1 ≤ 2 ∧ 2 ≤ 6) ∧
    (getPayoutBucket 7 2 = getPayoutBucket 7 5 ∧
      ((7 : ℚ) ≤ 5.5 → getPayoutBucket 7 2 = 0) ∧
      (5.5 < (7 : ℚ) → (7 : ℚ) ≤ 9.6 → getPayoutBucket 7 2 = 1) ∧
      (9.6 < (7 : ℚ) → getPayoutBucket 7 2 = 2) ∧
      obsCode 2 7 < 18) :=
  ⟨⟨by norm_num, by norm_num⟩,
    getPayoutBucket_slot_independent 7 2 5 2 (by norm_num) (by norm_num)⟩

/-- C6: with ensemble size `K = 1`, the aggregation loop of `runBacktest`
returns the single model's per-step vector unchanged: each component is
`0 + stepProbs[k] * (1 / 1)`, which is exact (also bitwise exact in IEEE
doubles, since multiplying by `1.0` and adding to `0` are identities on
the nonnegative finite values involved). -/
theorem aggregate_singleton_ensemble (pred : List (Fin M → ℚ)) (j : ℕ)
    (hj : j < pred.length) :
    aggregateProbs [pred] j 1 = pred.get ⟨j, hj⟩ := by
  funext k
  simp [aggregateProbs, List.getElem?_eq_getElem hj]

/-- Witness for C6: a one-element prediction list at position 0. -/
theorem aggregate_singleton_ensemble_witness :
    aggregateProbs (M := 1) [[fun _ => (1 : ℚ) / 2]] 0 1 =
      [fun _ => (1 : ℚ) / 2].get ⟨0, Nat.zero_lt_one⟩ :=
  aggregate_singleton_ensemble [fun _ => (1 : ℚ) / 2] 0 Nat.zero_lt_one

/-- C5: `train` on a sequence of length 0 or 1 is a strict no-op for any
iteration and tolerance arguments: the guard `if (T < 2) return` runs before
any mutation, so `A`, `B`, `pi` and the cached transpose `At` all keep their
exact pre-call values (the whole model state is returned unchanged). -/
theorem train_degenerate_noop (h : HMM N M) (obs : List (Obs M))
    (iterations : ℕ) (tolerance : ℚ) (hlen : obs.length < 2) :
    train h obs iterations tolerance = h ∧
    (train h obs iterations tolerance).A = h.A ∧
    (train h obs iterations tolerance).B = h.B ∧
    (train h obs iterations tolerance).pi = h.pi ∧
    (train h obs iterations tolerance).At = h.At := by
  have : train h obs iterations tolerance = h := by
    unfold train
    rw [if_pos hlen]
  exact ⟨this, by rw [this], by rw [this], by rw [this], by rw [this]⟩

/-- Witness for C5: a length-1 sequence leaves the model untouched. -/
theorem train_degenerate_noop_witness :
    ([some 0] : List (Obs 1)).length < 2 ∧
    train oneHMM [some 0] 7 (1 / 100) = oneHMM :=
  ⟨by decide, (train_degenerate_noop oneHMM [some 0] 7 (1 / 100) (by decide)).1⟩

/-- C7: for every sequence and every `steps ≥ 1`, `predictNext` returns the
element at index `steps - 1` of `predictSteps`, which is its last element
(the returned list has exactly `steps` entries). -/
theorem predictNext_is_last (h0 : HMM N M) (obs : List (Obs M)) (steps : ℕ)
    (hs : 1 ≤ steps) :
    (predictSteps h0 obs steps).getLast? = some (predictNext h0 obs steps) := by
  have hlen : (predictSteps h0 obs steps).length = steps :=
    predictSteps_length h0 obs steps
  have hne : predictSteps h0 obs steps ≠ [] := by
    intro hnil
    rw [hnil] at hlen
    simp at hlen
    omega
  rw [List.getLast?_eq_getLast_of_ne_nil hne, List.getLast_eq_getElem]
  have hidx : steps - 1 < (predictSteps h0 obs steps).length := by omega
  rw [predictNext, List.getD_eq_getElem _ _ (by omega)]
  simp [hlen]

/-- Witness for C7 at `steps = 2` on the empty sequence. -/
theorem predictNext_is_last_witness :
    1 ≤ 2 ∧
    (predictSteps oneHMM ([] : List (Obs 1)) 2).getLast? =
      some (predictNext oneHMM ([] : List (Obs 1)) 2) :=
  ⟨by decide, predictNext_is_last oneHMM [] 2 (by decide)⟩

lemma fillRandomNormalized_pos_sum {n : ℕ} (hn : 0 < n) (vals : Fin n → ℚ) :
    (∀ i, 0 < fillRandomNormalized vals i) ∧
    (∑ i, fillRandomNormalized vals i) = 1 := by
  have hci : ∀ i : Fin n, 0 < max (vals i) clampFloor := fun i =>
    lt_of_lt_of_le clampFloor_pos (le_max_right _ _)
  have hne : (Finset.univ : Finset (Fin n)).Nonempty := by
    have : Nonempty (Fin n) := ⟨⟨0, hn⟩⟩
    exact Finset.univ_nonempty
  have hs : 0 < ∑ i : Fin n, max (vals i) clampFloor :=
    Finset.sum_pos (fun i _ => hci i) hne
  constructor
  · intro i
    simp only [fillRandomNormalized, if_pos hs]
    exact mul_pos (hci i) (by positivity)
  · simp only [fillRandomNormalized, if_pos hs]
    rw [← Finset.sum_mul, mul_one_div, div_self (ne_of_gt hs)]

/-- C3: immediately after construction (`initializeProbabilities`), every
entry of `pi`, `A` and `B` is strictly positive, and `pi` and every row of
`A` and `B` sum to exactly 1 (hence within 1e-9), for every valid pair
`N ≥ 1`, `M ≥ 1` and every stream of raw random draws. -/
theorem initialize_distributions (N M : ℕ) (hN : 1 ≤ N) (hM : 1 ≤ M)
    (rpi : Fin N → ℚ) (rA : Fin N → Fin N → ℚ) (rB : Fin N → Fin M → ℚ) :
    (∀ i, 0 < (initializeProbabilities N M rpi rA rB).pi i) ∧
    (∀ i j, 0 < (initializeProbabilities N M rpi rA rB).A i j) ∧
    (∀ i k, 0 < (initializeProbabilities N M rpi rA rB).B i k) ∧
    (∑ i, (initializeProbabilities N M rpi rA rB).pi i) = 1 ∧
    (∀ i, (∑ j, (initializeProbabilities N M rpi rA rB).A i j) = 1) ∧
    (∀ i, (∑ k, (initializeProbabilities N M rpi rA rB).B i k) = 1) := by
  have hpi := fillRandomNormalized_pos_sum hN rpi
  have hA := fun i => fillRandomNormalized_pos_sum hN (rA i)
  have hB := fun i => fillRandomNormalized_pos_sum hM (rB i)
  exact ⟨fun i => hpi.1 i, fun i j => (hA i).1 j, fun i k => (hB i).1 k,
    hpi.2, fun i => (hA i).2, fun i => (hB i).2⟩

/-- Witness for C3 at `N = M = 1` with constant raw draws. -/
theorem initialize_distributions_witness :
    (1 ≤ 1 ∧ 1 ≤ 1) ∧
    ((∀ i, 0 < (initializeProbabilities 1 1 (fun _ => 0) (fun _ _ => 0)
        (fun _ _ => 0)).pi i) ∧
      (∀ i j, 0 < (initializeProbabilities 1 1 (fun _ => 0) (fun _ _ => 0)
        (fun _ _ => 0)).A i j) ∧
      (∀ i k, 0 < (initializeProbabilities 1 1 (fun _ => 0) (fun _ _ => 0)
        (fun _ _ => 0)).B i k) ∧
      (∑ i, (initializeProbabilities 1 1 (fun _ => 0) (fun _ _ => 0)
        (fun _ _ => 0)).pi i) = 1 ∧
      (∀ i, (∑ j, (initializeProbabilities 1 1 (fun _ => 0) (fun _ _ => 0)
        (fun _ _ => 0)).A i j) = 1) ∧
      (∀ i, (∑ k, (initializeProbabilities 1 1 (fun _ => 0) (fun _ _ => 0)
        (fun _ _ => 0)).B i k) = 1)) :=
  ⟨⟨le_refl 1, le_refl 1⟩,
    initialize_distributions 1 1 (le_refl 1) (le_refl 1) _ _ _⟩

lemma sum_eq_one_N_pos {N : ℕ} {f : Fin N → ℚ} (hf : (∑ i, f i) = 1) :
    0 < N := by
  rcases Nat.eq_zero_or_pos N with h0 | h0
  · subst h0
    simp at hf
  · exact h0

lemma sum_mix {a b : ℕ} (f : Fin a → ℚ) (g : Fin a → Fin b → ℚ)
    (hf : (∑ i, f i) = 1) (hg : ∀ i, (∑ j, g i j) = 1) :
    (∑ j, ∑ i, f i * g i j) = 1 := by
  rw [Finset.sum_comm]
  have hrow : ∀ i, (∑ j, f i * g i j) = f i := fun i => by
    rw [← Finset.mul_sum, hg i, mul_one]
  rw [Finset.sum_congr rfl fun i _ => hrow i, hf]

lemma sum_initialStateDistribution (h : HMM N M) (obs : List (Obs M))
    (hpi : (∑ i, h.pi i) = 1) :
    (∑ i, initialStateDistribution h obs i) = 1 := by
  have hN : 0 < N := sum_eq_one_N_pos hpi
  unfold initialStateDistribution
  split_ifs with hlen hs
  · exact hpi
  · rw [Finset.sum_const, Finset.card_univ, Fintype.card_fin, nsmul_eq_mul,
      mul_one_div, div_self]
    exact_mod_cast hN.ne'
  · rw [← Finset.sum_mul, mul_one_div, div_self hs]

lemma predictLoop_sum (h : HMM N M) (hAcol : ∀ i, (∑ j, h.At j i) = 1)
    (hB : ∀ i, (∑ k, h.B i k) = 1) :
    ∀ (s : ℕ) (st : Fin N → ℚ), (∑ i, st i) = 1 →
      ∀ v ∈ predictLoop h s st, (∑ k, v k) = 1 := by
  intro s
  induction s with
  | zero =>
    intro st _ v hv
    simp [predictLoop] at hv
  | succ n ih =>
    intro st hst v hv
    have hst' : (∑ j, projectState h st j) = 1 :=
      sum_mix st (fun i j => h.At j i) hst hAcol
    simp only [predictLoop, List.mem_cons] at hv
    rcases hv with rfl | hv
    · exact sum_mix (projectState h st) (fun i k => h.B i k) hst' hB
    · exact ih (projectState h st) hst' v hv

/-- C1: for a model whose transition rows, emission rows and `pi` are
probability distributions and whose transpose cache is in sync (both hold
after `initializeProbabilities` and after `train`), `predictSteps(seq, S)`
returns exactly `S` vectors — each of length `M` by its `Fin M → ℚ` type —
and every vector's entries sum to exactly 1 in exact arithmetic (hence
within 1e-6). -/
theorem predictSteps_distributions (h0 : HMM N M) (obs : List (Obs M)) (S : ℕ)
    (hA : ∀ i, (∑ j, h0.A i j) = 1) (hB : ∀ i, (∑ k, h0.B i k) = 1)
    (hpi : (∑ i, h0.pi i) = 1) (hAt : ∀ j i, h0.At j i = h0.A i j) :
    (predictSteps h0 obs S).length = S ∧
    ∀ v ∈ predictSteps h0 obs S, (∑ k, v k) = 1 := by
  have hcase : predictStepsPost h0 obs = h0 ∨
      predictStepsPost h0 obs = updateTransposedA h0 := by
    unfold predictStepsPost
    split_ifs
    · exact Or.inl rfl
    · exact Or.inr rfl
  have hAcol : ∀ i, (∑ j, (predictStepsPost h0 obs).At j i) = 1 := by
    intro i
    rcases hcase with hc | hc <;> rw [hc]
    · calc (∑ j, h0.At j i) = ∑ j, h0.A i j :=
            Finset.sum_congr rfl fun j _ => hAt j i
        _ = 1 := hA i
    · exact hA i
  have hB' : ∀ i, (∑ k, (predictStepsPost h0 obs).B i k) = 1 := by
    intro i
    rcases hcase with hc | hc <;> rw [hc] <;> exact hB i
  have hpi' : (∑ i, (predictStepsPost h0 obs).pi i) = 1 := by
    rcases hcase with hc | hc <;> rw [hc] <;> exact hpi
  refine ⟨predictSteps_length h0 obs S, ?_⟩
  intro v hv
  exact predictLoop_sum (predictStepsPost h0 obs) hAcol hB' S
    (initialStateDistribution (predictStepsPost h0 obs) obs)
    (sum_initialStateDistribution _ obs hpi') v hv

/-- Witness for C1: the all-ones one-state model, two steps ahead. -/
theorem predictSteps_distributions_witness :
    ((∀ i, (∑ j, oneHMM.A i j) = 1) ∧ (∀ i, (∑ k, oneHMM.B i k) = 1) ∧
      (∑ i, oneHMM.pi i) = 1 ∧ (∀ j i, oneHMM.At j i = oneHMM.A i j)) ∧
    ((predictSteps oneHMM [some 0] 2).length = 2 ∧
      ∀ v ∈ predictSteps oneHMM [some 0] 2, (∑ k, v k) = 1) :=
  ⟨⟨fun i => by simp [oneHMM], fun i => by simp [oneHMM], by simp [oneHMM],
      fun j i => rfl⟩,
    predictSteps_distributions oneHMM [some 0] 2
      (fun i => by simp [oneHMM]) (fun i => by simp [oneHMM])
      (by simp [oneHMM]) (fun j i => rfl)⟩

lemma emStep_sync {h0 : HMM N M} (obs : List (Obs M))
    (hs : ∀ j i, h0.At j i = h0.A i j) :
    ∀ j i, (emStep h0 obs).At j i = (emStep h0 obs).A i j := by
  unfold emStep
  split_ifs with hfw
  · exact fun j i => rfl
  · exact hs

lemma iterate_emStep_sync (obs : List (Obs M)) (n : ℕ) :
    ∀ h0 : HMM N M, (∀ j i, h0.At j i = h0.A i j) →
      ∀ j i, ((fun hh => emStep hh obs)^[n] h0).At j i =
        ((fun hh => emStep hh obs)^[n] h0).A i j := by
  induction n with
  | zero =>
    intro h0 hs
    simpa using hs
  | succ m ih =>
    intro h0 hs
    rw [Function.iterate_succ_apply]
    exact ih (emStep h0 obs) (emStep_sync obs hs)

/-- C8: the transpose cache stays consistent with `A` across every public
operation. After construction it equals the transpose by definition; `train`
resyncs it before the loop and after every M-step mutation of `A` (so the
invariant holds for any arguments, given it held before the call, which
construction guarantees); `predictSteps` mutates nothing but the cache, which
it leaves in sync, so the forward/prediction loops never read a stale value. -/
theorem transpose_cache_invariant (rpi : Fin N → ℚ) (rA : Fin N → Fin N → ℚ)
    (rB : Fin N → Fin M → ℚ) (h : HMM N M) (obs : List (Obs M))
    (iterations : ℕ) (tolerance : ℚ)
    (hsync : ∀ j i, h.At j i = h.A i j) :
    (∀ j i, (initializeProbabilities N M rpi rA rB).At j i =
      (initializeProbabilities N M rpi rA rB).A i j) ∧
    (∀ j i, (train h obs iterations tolerance).At j i =
      (train h obs iterations tolerance).A i j) ∧
    ((predictStepsPost h obs).A = h.A ∧ (predictStepsPost h obs).B = h.B ∧
      (predictStepsPost h obs).pi = h.pi ∧
      ∀ j i, (predictStepsPost h obs).At j i = (predictStepsPost h obs).A i j) := by
  refine ⟨fun j i => rfl, ?_, ?_⟩
  · unfold train
    split_ifs with hlen
    · exact hsync
    · exact iterate_emStep_sync obs iterations (updateTransposedA h)
        (fun j i => rfl)
  · unfold predictStepsPost
    split_ifs
    · exact ⟨rfl, rfl, rfl, hsync⟩
    · exact ⟨rfl, rfl, rfl, fun j i => rfl⟩

/-- Witness for C8 on the all-ones one-state model. -/
theorem transpose_cache_invariant_witness :
    (∀ j i, oneHMM.At j i = oneHMM.A i j) ∧
    (∀ j i, (train oneHMM [some 0, some 0] 1 0).At j i =
      (train oneHMM [some 0, some 0] 1 0).A i j) :=
  ⟨fun j i => rfl,
    (transpose_cache_invariant (fun _ => 0) (fun _ _ => 0) (fun _ _ => 0)
      oneHMM [some 0, some 0] 1 0 (fun j i => rfl)).2.1⟩

/-- Modelled from the spec (the refinement reference for the masking claim):
emission re-estimation with position `p` excluded explicitly from both the
numerator and the denominator, while the `gamma` stream — which keeps the
masked position in the state/transition accumulation — is taken as given. -/
def reestimateBExcluding (obs : List (Obs M)) (gamma : ℕ → Fin N → ℚ)
    (T p : ℕ) : Fin N → Fin M → ℚ :=
  fun j k =>
    (∑ t ∈ (Finset.range T).erase p,
        if obsAt obs t = some k then gamma t j else 0) *
      (1 / guardDenom (∑ t ∈ (Finset.range T).erase p, gamma t j))

lemma reestimateB_mask_eq (obs : List (Obs M)) (gamma : ℕ → Fin N → ℚ)
    (p : ℕ) (hp : p < obs.length) (hmask : obsAt obs p = none)
    (hothers : ∀ t, t < obs.length → t ≠ p → obsAt obs t ≠ none) :
    reestimateB obs gamma obs.length =
      reestimateBExcluding obs gamma obs.length p := by
  funext j k
  unfold reestimateB reestimateBExcluding
  have hpmem : p ∈ Finset.range obs.length := Finset.mem_range.mpr hp
  have hnum :
      (∑ t ∈ Finset.range obs.length,
          if obsAt obs t = some k then gamma t j else 0) =
        ∑ t ∈ (Finset.range obs.length).erase p,
          if obsAt obs t = some k then gamma t j else 0 := by
    rw [← Finset.add_sum_erase _ _ hpmem, hmask]
    simp
  have hden :
      (∑ t ∈ Finset.range obs.length,
          if obsAt obs t ≠ none then gamma t j else 0) =
        ∑ t ∈ (Finset.range obs.length).erase p, gamma t j := by
    rw [← Finset.add_sum_erase _ _ hpmem, hmask]
    simp only [ne_eq, not_true_eq_false, if_false, zero_add]
    refine Finset.sum_congr rfl fun t ht => ?_
    have htp : t ≠ p := Finset.ne_of_mem_erase ht
    have htr : t < obs.length := Finset.mem_range.mp (Finset.mem_of_mem_erase ht)
    rw [if_pos (hothers t htr htp)]
  rw [hnum, hden]

/-- C2: on a sequence whose position `p` is the unresolved sentinel and whose
other positions are all resolved, one EM iteration of `train` treats the
sentinel's emission probability as exactly `1.0` in the forward recursion
(both the initial row and the step rows) and in the backward recursion's
inner sum, and produces exactly the emission-matrix update obtained by
excluding position `p` from the numerator and denominator of the emission
re-estimation while keeping it in the xi/gamma accumulation. -/
theorem masked_position_emission_update (h0 : HMM N M) (obs : List (Obs M))
    (p : ℕ) (hp : p < obs.length) (hmask : obsAt obs p = none)
    (hothers : ∀ t, t < obs.length → t ≠ p → obsAt obs t ≠ none)
    (hfw : (computeForward h0 obs).2 = true) :
    (∀ (prev : Fin N → ℚ) (j : Fin N),
        forwardStepRow h0 prev none j = ∑ i, prev i * h0.At j i) ∧
    (∀ i : Fin N, forwardInitRow h0 none i = h0.pi i) ∧
    (∀ (nxt : Fin N → ℚ) (i : Fin N),
        (∑ j, h0.A i j * emissionProb h0.B none j * nxt j) =
          ∑ j, h0.A i j * nxt j) ∧
    (emStep h0 obs).B =
      reestimateBExcluding obs
        (fun t => gammaAt h0 obs (computeForward h0 obs).1
          (computeBackward h0 obs) obs.length t)
        obs.length p := by
  refine ⟨?_, ?_, ?_, ?_⟩
  · intro prev j
    simp [forwardStepRow, emissionProb]
  · intro i
    simp [forwardInitRow, emissionProb]
  · intro nxt i
    refine Finset.sum_congr rfl fun j _ => ?_
    simp [emissionProb]
  · have hB : (emStep h0 obs).B =
        reestimateB obs
          (fun t => gammaAt h0 obs (computeForward h0 obs).1
            (computeBackward h0 obs) obs.length t)
          obs.length := by
      unfold emStep
      rw [if_pos hfw]
    rw [hB, reestimateB_mask_eq obs _ p hp hmask hothers]

/-- Witness for C2: the one-state model on `[0, sentinel, 0]`, masked at 1. -/
theorem masked_position_emission_update_witness :
    ((1 < ([some 0, none, some 0] : List (Obs 1)).length ∧
        obsAt ([some 0, none, some 0] : List (Obs 1)) 1 = none) ∧
      (computeForward oneHMM [some 0, none, some 0]).2 = true) ∧
    (emStep oneHMM [some 0, none, some 0]).B =
      reestimateBExcluding [some 0, none, some 0]
        (fun t => gammaAt oneHMM [some 0, none, some 0]
          (computeForward oneHMM [some 0, none, some 0]).1
          (computeBackward oneHMM [some 0, none, some 0]) 3 t)
        3 1 :=
  have hfw : (computeForward oneHMM [some 0, none, some 0]).2 = true := by
    norm_num [computeForward, forwardAux, forwardInitRow, forwardStepRow,
      normalizeRow, rowSum, emissionProb, oneHMM, Fin.sum_univ_one]
  ⟨⟨⟨by decide, by decide⟩, hfw⟩,
    (masked_position_emission_update oneHMM [some 0, none, some 0] 1
      (by decide) (by decide)
      (by
        intro t ht hne
        have ht3 : t < 3 := ht
        interval_cases t
        · decide
        · exact absurd rfl hne
        · decide)
      hfw).2.2.2⟩

/-- All matrix and vector entries of a model are nonnegative (the rational
embedding's rendering of "finite, well-defined, no NaN" for the outputs). -/
def EntriesNonneg (h : HMM N M) : Prop :=
  (∀ i j, 0 ≤ h.A i j) ∧ (∀ i k, 0 ≤ h.B i k) ∧ (∀ i, 0 ≤ h.pi i) ∧
  (∀ j i, 0 ≤ h.At j i)

lemma emissionProb_nonneg {B : Fin N → Fin M → ℚ} (hB : ∀ i k, 0 ≤ B i k)
    (o : Obs M) (j : Fin N) : 0 ≤ emissionProb B o j := by
  cases o with
  | none => exact zero_le_one
  | some k => exact hB j k

lemma alphaAt_nonneg {l : List (Fin N → ℚ)}
    (hl : ∀ row ∈ l, ∀ i, 0 ≤ row i) (t : ℕ) : ∀ i, 0 ≤ alphaAt l t i := by
  unfold alphaAt
  rcases lt_or_ge t l.length with hlt | hge
  · rw [List.getD_eq_getElem _ _ hlt]
    exact hl _ (List.getElem_mem hlt)
  · rw [List.getD_eq_default _ _ hge]
    intro i
    exact le_refl 0

lemma forwardAux_rows_nonneg (h : HMM N M) (hAt : ∀ j i, 0 ≤ h.At j i)
    (hB : ∀ i k, 0 ≤ h.B i k) :
    ∀ (obs : List (Obs M)) (prev : Fin N → ℚ), (∀ i, 0 ≤ prev i) →
      ∀ row ∈ (forwardAux h prev obs).1, ∀ i, 0 ≤ row i := by
  intro obs
  induction obs with
  | nil =>
    intro prev _ row hrow
    simp [forwardAux] at hrow
  | cons o rest ih =>
    intro prev hp row hrow
    have hstep : ∀ j, 0 ≤ forwardStepRow h prev o j := fun j =>
      mul_nonneg (Finset.sum_nonneg fun i _ => mul_nonneg (hp i) (hAt j i))
        (emissionProb_nonneg hB o j)
    by_cases hle : rowSum (forwardStepRow h prev o) ≤ 0
    · simp only [forwardAux, if_pos hle, List.mem_cons] at hrow
      rcases hrow with rfl | hmem
      · exact hstep
      · rw [List.mem_map] at hmem
        obtain ⟨a, _, hEq⟩ := hmem
        intro i
        rw [← hEq]
    · have hpos : 0 < rowSum (forwardStepRow h prev o) := not_le.mp hle
      have hnorm : ∀ i, 0 ≤ normalizeRow (forwardStepRow h prev o) i := fun i =>
        mul_nonneg (hstep i) (by positivity)
      simp only [forwardAux, if_neg hle, List.mem_cons] at hrow
      rcases hrow with rfl | hmem
      · exact hnorm
      · exact ih (normalizeRow _) hnorm row hmem

lemma computeForward_rows_nonneg (h : HMM N M) (hAt : ∀ j i, 0 ≤ h.At j i)
    (hB : ∀ i k, 0 ≤ h.B i k) (hpi : ∀ i, 0 ≤ h.pi i) :
    ∀ (obs : List (Obs M)), ∀ row ∈ (computeForward h obs).1, ∀ i, 0 ≤ row i := by
  intro obs
  cases obs with
  | nil =>
    intro row hrow
    simp [computeForward] at hrow
  | cons o rest =>
    intro row hrow
    have hinit : ∀ i, 0 ≤ forwardInitRow h o i := fun i =>
      mul_nonneg (hpi i) (emissionProb_nonneg hB o i)
    by_cases hle : rowSum (forwardInitRow h o) ≤ 0
    · simp only [computeForward, if_pos hle, List.mem_cons] at hrow
      rcases hrow with rfl | hmem
      · exact hinit
      · rw [List.mem_map] at hmem
        obtain ⟨a, _, hEq⟩ := hmem
        intro i
        rw [← hEq]
    · have hpos : 0 < rowSum (forwardInitRow h o) := not_le.mp hle
      have hnorm : ∀ i, 0 ≤ normalizeRow (forwardInitRow h o) i := fun i =>
        mul_nonneg (hinit i) (by positivity)
      simp only [computeForward, if_neg hle, List.mem_cons] at hrow
      rcases hrow with rfl | hmem
      · exact hnorm
      · exact forwardAux_rows_nonneg h hAt hB rest (normalizeRow _) hnorm row hmem

lemma computeBackward_rows_nonneg (h : HMM N M) (hA : ∀ i j, 0 ≤ h.A i j)
    (hB : ∀ i k, 0 ≤ h.B i k) :
    ∀ (obs : List (Obs M)), ∀ row ∈ computeBackward h obs, ∀ i, 0 ≤ row i := by
  intro obs
  induction obs with
  | nil =>
    intro row hrow
    simp [computeBackward] at hrow
  | cons o rest ih =>
    cases rest with
    | nil =>
      intro row hrow
      simp only [computeBackward, List.mem_singleton] at hrow
      subst hrow
      intro i
      exact zero_le_one
    | cons o2 rest2 =>
      intro row hrow
      have hnxt : ∀ i,
          0 ≤ (computeBackward h (o2 :: rest2)).headD (fun _ => 0) i := by
        cases hcb : computeBackward h (o2 :: rest2) with
        | nil =>
          intro i
          simp [List.headD]
        | cons r tl2 =>
          intro i
          have hr := ih r (by rw [hcb]; exact List.mem_cons_self r tl2)
          simpa [List.headD] using hr i
      have hrow0 : ∀ i, 0 ≤ ∑ j, h.A i j * emissionProb h.B o2 j *
          (computeBackward h (o2 :: rest2)).headD (fun _ => 0) j := fun i =>
        Finset.sum_nonneg fun j _ =>
          mul_nonneg (mul_nonneg (hA i j) (emissionProb_nonneg hB o2 j)) (hnxt j)
      simp only [computeBackward, List.mem_cons] at hrow
      rcases hrow with rfl | hmem
      · intro i
        refine mul_nonneg (hrow0 i) ?_
        have hsum : 0 ≤ rowSum (fun i => ∑ j, h.A i j * emissionProb h.B o2 j *
            (computeBackward h (o2 :: rest2)).headD (fun _ => 0) j) :=
          Finset.sum_nonneg fun i _ => hrow0 i
        have := guardDenom_pos hsum
        positivity
      · exact ih row hmem

lemma gammaAt_nonneg (h : HMM N M) (obs : List (Obs M))
    (alpha beta : List (Fin N → ℚ)) (T t : ℕ)
    (halpha : ∀ row ∈ alpha, ∀ i, 0 ≤ row i)
    (hbeta : ∀ row ∈ beta, ∀ i, 0 ≤ row i)
    (hA : ∀ i j, 0 ≤ h.A i j) (hB : ∀ i k, 0 ≤ h.B i k) :
    ∀ i, 0 ≤ gammaAt h obs alpha beta T t i := by
  have hxiU : ∀ (a b : ℕ) (o : Obs M) (i j : Fin N),
      0 ≤ xiUnnorm h (alphaAt alpha a) (alphaAt beta b) o i j := by
    intro a b o i j
    exact mul_nonneg
      (mul_nonneg
        (mul_nonneg (alphaAt_nonneg halpha a i) (hA i j))
        (emissionProb_nonneg hB o j))
      (alphaAt_nonneg hbeta b j)
  intro i
  unfold gammaAt
  split_ifs with ht
  · unfold gammaLast
    refine mul_nonneg (alphaAt_nonneg halpha (T - 1) i) ?_
    have hs : 0 ≤ ∑ k, alphaAt alpha (T - 1) k :=
      Finset.sum_nonneg fun k _ => alphaAt_nonneg halpha (T - 1) k
    have := guardDenom_pos hs
    positivity
  · unfold gammaRow xiNorm
    refine Finset.sum_nonneg fun j _ => mul_nonneg (hxiU t (t + 1) _ i j) ?_
    have hs : 0 ≤ xiDenom h (alphaAt alpha t) (alphaAt beta (t + 1))
        (obsAt obs (t + 1)) :=
      Finset.sum_nonneg fun a _ => Finset.sum_nonneg fun b _ => hxiU t (t + 1) _ a b
    have := guardDenom_pos hs
    positivity

lemma emStep_nonneg (h0 : HMM N M) (obs : List (Obs M))
    (hnn : EntriesNonneg h0) : EntriesNonneg (emStep h0 obs) := by
  obtain ⟨hA, hB, hpi, hAt⟩ := hnn
  unfold emStep
  split_ifs with hfw
  · have halpha := computeForward_rows_nonneg h0 hAt hB hpi obs
    have hbeta := computeBackward_rows_nonneg h0 hA hB obs
    have hgam : ∀ t i, 0 ≤ gammaAt h0 obs (computeForward h0 obs).1
        (computeBackward h0 obs) obs.length t i := fun t =>
      gammaAt_nonneg h0 obs _ _ obs.length t halpha hbeta hA hB
    have hxi : ∀ t i j, 0 ≤ xiAt h0 obs (computeForward h0 obs).1
        (computeBackward h0 obs) t i j := by
      intro t i j
      unfold xiAt xiNorm
      have hxiU : ∀ (a b : Fin N), 0 ≤ xiUnnorm h0
          (alphaAt (computeForward h0 obs).1 t)
          (alphaAt (computeBackward h0 obs) (t + 1)) (obsAt obs (t + 1)) a b :=
        fun a b =>
          mul_nonneg
            (mul_nonneg
              (mul_nonneg (alphaAt_nonneg halpha t a) (hA a b))
              (emissionProb_nonneg hB _ b))
            (alphaAt_nonneg hbeta (t + 1) b)
      refine mul_nonneg (hxiU i j) ?_
      have hs : 0 ≤ xiDenom h0 (alphaAt (computeForward h0 obs).1 t)
          (alphaAt (computeBackward h0 obs) (t + 1)) (obsAt obs (t + 1)) :=
        Finset.sum_nonneg fun a _ => Finset.sum_nonneg fun b _ => hxiU a b
      have := guardDenom_pos hs
      positivity
    have hA' : ∀ i j, 0 ≤ reestimateA
        (fun t => xiAt h0 obs (computeForward h0 obs).1
          (computeBackward h0 obs) t)
        (fun t => gammaAt h0 obs (computeForward h0 obs).1
          (computeBackward h0 obs) obs.length t)
        obs.length i j := by
      intro i j
      unfold reestimateA
      refine mul_nonneg (Finset.sum_nonneg fun t _ => hxi t i j) ?_
      have hs : (0 : ℚ) ≤ ∑ t ∈ Finset.range (obs.length - 1),
          gammaAt h0 obs (computeForward h0 obs).1 (computeBackward h0 obs)
            obs.length t i :=
        Finset.sum_nonneg fun t _ => hgam t i
      have := guardDenom_pos hs
      positivity
    refine ⟨hA', ?_, fun i => hgam 0 i, fun j i => hA' i j⟩
    intro j k
    unfold reestimateB
    refine mul_nonneg
      (Finset.sum_nonneg fun t _ => ?_) ?_
    · split_ifs
      · exact hgam t j
      · exact le_refl 0
    · have hs : (0 : ℚ) ≤ ∑ t ∈ Finset.range obs.length,
          if obsAt obs t ≠ none then
            gammaAt h0 obs (computeForward h0 obs).1 (computeBackward h0 obs)
              obs.length t j
          else 0 := by
        refine Finset.sum_nonneg fun t _ => ?_
        split_ifs
        · exact hgam t j
        · exact le_refl 0
      have := guardDenom_pos hs
      positivity
  · exact ⟨hA, hB, hpi, hAt⟩

lemma iterate_emStep_nonneg (obs : List (Obs M)) (n : ℕ) :
    ∀ h0 : HMM N M, EntriesNonneg h0 →
      EntriesNonneg ((fun hh => emStep hh obs)^[n] h0) := by
  induction n with
  | zero =>
    intro h0 hs
    simpa using hs
  | succ m ih =>
    intro h0 hs
    rw [Function.iterate_succ_apply]
    exact ih (emStep h0 obs) (emStep_nonneg h0 obs hs)

/-- C4: the numerical-collapse guards of `train`. If a forward-pass row sum is
non-positive at the first EM round (the source's `-Infinity` likelihood), the
loop breaks immediately: training returns with `A`, `B`, `pi` exactly equal to
their pre-call values (only the transpose cache has been resynced), and no
exception reaches the caller (the embedding is total). Every other
zero-denominator site goes through `guardDenom`, which substitutes the tiny
positive `1e-20` and hence never returns zero — and is strictly positive on
the nonnegative sums it is applied to — so for any model with nonnegative
entries, every entry of `pi`, `A` and `B` after `train` is a well-defined
nonnegative rational: no division by zero (the exact-arithmetic analogue of
NaN) and no Infinity can arise. -/
theorem train_numerical_guards (h : HMM N M) (obs : List (Obs M))
    (iterations : ℕ) (tolerance : ℚ)
    (hA : ∀ i j, 0 ≤ h.A i j) (hB : ∀ i k, 0 ≤ h.B i k)
    (hpi : ∀ i, 0 ≤ h.pi i) :
    (2 ≤ obs.length → (computeForward (updateTransposedA h) obs).2 = false →
      (train h obs iterations tolerance).A = h.A ∧
      (train h obs iterations tolerance).B = h.B ∧
      (train h obs iterations tolerance).pi = h.pi) ∧
    (∀ d : ℚ, guardDenom d ≠ 0) ∧
    (∀ d : ℚ, 0 ≤ d → 0 < guardDenom d) ∧
    (∀ i j, 0 ≤ (train h obs iterations tolerance).A i j) ∧
    (∀ i k, 0 ≤ (train h obs iterations tolerance).B i k) ∧
    (∀ i, 0 ≤ (train h obs iterations tolerance).pi i) := by
  have hcase : train h obs iterations tolerance = h ∨
      train h obs iterations tolerance =
        (fun hh => emStep hh obs)^[iterations] (updateTransposedA h) := by
    unfold train
    split_ifs
    · exact Or.inl rfl
    · exact Or.inr rfl
  have hnn3 : (∀ i j, 0 ≤ (train h obs iterations tolerance).A i j) ∧
      (∀ i k, 0 ≤ (train h obs iterations tolerance).B i k) ∧
      (∀ i, 0 ≤ (train h obs iterations tolerance).pi i) := by
    rcases hcase with heq | heq <;> rw [heq]
    · exact ⟨hA, hB, hpi⟩
    · have hiter := iterate_emStep_nonneg obs iterations (updateTransposedA h)
        ⟨hA, hB, hpi, fun j i => hA i j⟩
      exact ⟨hiter.1, hiter.2.1, hiter.2.2.1⟩
  refine ⟨?_, guardDenom_ne_zero, fun d hd => guardDenom_pos hd,
    hnn3.1, hnn3.2.1, hnn3.2.2⟩
  intro hlen hfail
  have heq : train h obs iterations tolerance =
      (fun hh => emStep hh obs)^[iterations] (updateTransposedA h) := by
    unfold train
    rw [if_neg (by omega)]
  have hcond : ¬ ((computeForward (updateTransposedA h) obs).2 = true) := by
    simp [hfail]
  have hfix : emStep (updateTransposedA h) obs = updateTransposedA h := by
    unfold emStep
    rw [if_neg hcond]
  have hfixAll : ∀ n : ℕ, (fun hh => emStep hh obs)^[n] (updateTransposedA h) =
      updateTransposedA h := by
    intro n
    induction n with
    | zero => simp
    | succ m ihm =>
      rw [Function.iterate_succ_apply', ihm]
      exact hfix
  rw [heq, hfixAll iterations]
  exact ⟨rfl, rfl, rfl⟩

/-- Witness for C4 on the all-ones one-state model. -/
theorem train_numerical_guards_witness :
    ((∀ i j, 0 ≤ oneHMM.A i j) ∧ (∀ (i : Fin 1) (k : Fin 1), 0 ≤ oneHMM.B i k) ∧
      (∀ i, 0 ≤ oneHMM.pi i)) ∧
    ((∀ d : ℚ, guardDenom d ≠ 0) ∧
      (∀ i j, 0 ≤ (train oneHMM [some 0, some 0] 1 0).A i j)) :=
  have hA : ∀ i j, 0 ≤ oneHMM.A i j := fun _ _ => zero_le_one
  have hB : ∀ (i : Fin 1) (k : Fin 1), 0 ≤ oneHMM.B i k := fun _ _ => zero_le_one
  have hpi : ∀ i, 0 ≤ oneHMM.pi i := fun _ => zero_le_one
  ⟨⟨hA, hB, hpi⟩,
    ⟨(train_numerical_guards oneHMM [some 0, some 0] 1 0 hA hB hpi).2.1,
      (train_numerical_guards oneHMM [some 0, some 0] 1 0 hA hB hpi).2.2.2.1⟩⟩

lemma wfTrace_nil (K size : ℕ) (seq : List ℕ) :
    wfTrace K size seq [] = [] := by
  rw [wfTrace]
  simp

lemma wfTrace_cons (K size : ℕ) (seq : List ℕ) (races : List RaceR)
    (hsz : ¬ size = 0) (hr : ¬ races.length = 0) :
    wfTrace K size seq races =
      (K, seq ++ (races.take size).filterMap revealCode) ::
        wfTrace K size (seq ++ (races.take size).filterMap revealCode)
          (races.drop size) := by
  rw [wfTrace]
  simp only [dif_neg hsz, dif_neg hr]

/-- C9: the end-to-end walk-forward count. For any 6 target records that are
all resolved, with `chunkSize = 3` and `ensembleSize = 4`, the controller runs
exactly two chunks, submits exactly 4 tasks to the worker pool in each (8 in
total), and the derived observation-code sequence grows by exactly 3 at each
chunk's reveal step. -/
theorem walk_forward_counts (seq : List ℕ) (races : List RaceR)
    (hlen : races.length = 6)
    (hres : ∀ r ∈ races, r.winningSlot.isSome) :
    ((wfTrace 4 3 seq races).map Prod.fst = [4, 4]) ∧
    (((wfTrace 4 3 seq races).map Prod.fst).sum = 8) ∧
    ((wfTrace 4 3 seq races).map (fun e => e.2.length) =
      [seq.length + 3, seq.length + 6]) := by
  rcases races with _ | ⟨r1, races⟩
  · simp at hlen
  rcases races with _ | ⟨r2, races⟩
  · simp at hlen
  rcases races with _ | ⟨r3, races⟩
  · simp at hlen
  rcases races with _ | ⟨r4, races⟩
  · simp at hlen
  rcases races with _ | ⟨r5, races⟩
  · simp at hlen
  rcases races with _ | ⟨r6, races⟩
  · simp at hlen
  have hnil : races = [] := by
    have hz : races.length = 0 := by simpa using hlen
    exact List.eq_nil_of_length_eq_zero hz
  subst hnil
  obtain ⟨s1, hs1⟩ := Option.isSome_iff_exists.mp (hres r1 (by simp))
  obtain ⟨s2, hs2⟩ := Option.isSome_iff_exists.mp (hres r2 (by simp))
  obtain ⟨s3, hs3⟩ := Option.isSome_iff_exists.mp (hres r3 (by simp))
  obtain ⟨s4, hs4⟩ := Option.isSome_iff_exists.mp (hres r4 (by simp))
  obtain ⟨s5, hs5⟩ := Option.isSome_iff_exists.mp (hres r5 (by simp))
  obtain ⟨s6, hs6⟩ := Option.isSome_iff_exists.mp (hres r6 (by simp))
  have hc1 : [r1, r2, r3].filterMap revealCode =
      [obsCode s1 (r1.winningPayout.getD 0), obsCode s2 (r2.winningPayout.getD 0),
        obsCode s3 (r3.winningPayout.getD 0)] := by
    simp [revealCode, hs1, hs2, hs3]
  have hc2 : [r4, r5, r6].filterMap revealCode =
      [obsCode s4 (r4.winningPayout.getD 0), obsCode s5 (r5.winningPayout.getD 0),
        obsCode s6 (r6.winningPayout.getD 0)] := by
    simp [revealCode, hs4, hs5, hs6]
  have e1 : List.take 3 [r1, r2, r3, r4, r5, r6] = [r1, r2, r3] := rfl
  have e2 : List.drop 3 [r1, r2, r3, r4, r5, r6] = [r4, r5, r6] := rfl
  have e3 : List.take 3 [r4, r5, r6] = [r4, r5, r6] := rfl
  have e4 : List.drop 3 [r4, r5, r6] = ([] : List RaceR) := rfl
  have htr : wfTrace 4 3 seq [r1, r2, r3, r4, r5, r6] =
      [(4, seq ++ [r1, r2, r3].filterMap revealCode),
        (4, (seq ++ [r1, r2, r3].filterMap revealCode) ++
          [r4, r5, r6].filterMap revealCode)] := by
    rw [wfTrace_cons 4 3 seq [r1, r2, r3, r4, r5, r6] (by omega) (by simp), e1, e2,
      wfTrace_cons 4 3 _ [r4, r5, r6] (by omega) (by simp), e3, e4, wfTrace_nil]
  rw [htr]
  refine ⟨by simp, by simp, ?_⟩
  simp only [List.map_cons, List.map_nil, hc1, hc2, List.length_append,
    List.length_cons, List.length_nil]

/-- Witness for C9: six concrete resolved records. -/
theorem walk_forward_counts_witness :
    ((([⟨some 1, some 2⟩, ⟨some 2, some 7⟩, ⟨some 3, some 11⟩,
        ⟨some 4, some 2⟩, ⟨some 5, some 7⟩, ⟨some 6, some 11⟩] :
          List RaceR).length = 6) ∧
      (∀ r ∈ ([⟨some 1, some 2⟩, ⟨some 2, some 7⟩, ⟨some 3, some 11⟩,
        ⟨some 4, some 2⟩, ⟨some 5, some 7⟩, ⟨some 6, some 11⟩] :
          List RaceR), r.winningSlot.isSome)) ∧
    ((wfTrace 4 3 [7] [⟨some 1, some 2⟩, ⟨some 2, some 7⟩, ⟨some 3, some 11⟩,
        ⟨some 4, some 2⟩, ⟨some 5, some 7⟩, ⟨some 6, some 11⟩]).map
          Prod.fst = [4, 4]) ∧
    (((wfTrace 4 3 [7] [⟨some 1, some 2⟩, ⟨some 2, some 7⟩, ⟨some 3, some 11⟩,
        ⟨some 4, some 2⟩, ⟨some 5, some 7⟩, ⟨some 6, some 11⟩]).map
          Prod.fst).sum = 8) ∧
    ((wfTrace 4 3 [7] [⟨some 1, some 2⟩, ⟨some 2, some 7⟩, ⟨some 3, some 11⟩,
        ⟨some 4, some 2⟩, ⟨some 5, some 7⟩, ⟨some 6, some 11⟩]).map
          (fun e => e.2.length) = [1 + 3, 1 + 6]) :=
  have hres : ∀ r ∈ ([⟨some 1, some 2⟩, ⟨some 2, some 7⟩, ⟨some 3, some 11⟩,
      ⟨some 4, some 2⟩, ⟨some 5, some 7⟩, ⟨some 6, some 11⟩] :
        List RaceR), r.winningSlot.isSome := by decide
  have hmain := walk_forward_counts [7]
    [⟨some 1, some 2⟩, ⟨some 2, some 7⟩, ⟨some 3, some 11⟩,
      ⟨some 4, some 2⟩, ⟨some 5, some 7⟩, ⟨some 6, some 11⟩] rfl hres
  ⟨⟨rfl, hres⟩, hmain.1, hmain.2.1, hmain.2.2⟩

end MsrOffroad
